import Mathlib

/-!
Verification of the instant-file-alchemy file-conversion app.

The development shallowly embeds the logic of the repository:

* `parsePageRange` from `src/components/PDFManipulator.tsx` — the page-range
  expression parser (comma-separated numbers and `start-end` ranges, validated
  against the page count, deduplicated via `Set` and sorted ascending);
* the `mergePDFs`, `splitPDF` and `compressPDF` handlers of the same file,
  modelled as state transitions over an emitted-file list;
* `processFiles` from the file-upload component (size/MIME acceptance);
* the rotation controls of the image converter (`(prev ± 90) % 360`).

JavaScript strings are modelled as `List Char` (`Str`); `String.prototype.trim`,
`String.prototype.split` and the global `parseInt` are given explicit
executable models below.  JavaScript's `%` on integers is truncated remainder,
i.e. `Int.tmod`.
-/

/-- JavaScript strings, modelled as lists of characters. -/
abbrev Str := List Char

/-- Convert a Lean string literal to the character-list model. -/
def toChars (s : String) : Str := s.data

/-- Whitespace as removed by `String.prototype.trim`. -/
def isSpace (c : Char) : Bool := c.isWhitespace

/-- Model of `String.prototype.trim`: strip leading and trailing whitespace. -/
def trim (l : Str) : Str :=
  ((l.dropWhile isSpace).reverse.dropWhile isSpace).reverse

/-- Model of `String.prototype.split(sep)` for a one-character separator.
`"".split(sep)` is `[""]`, and separators delimit (possibly empty) chunks. -/
def splitOnChar (sep : Char) : Str → List Str
  | [] => [[]]
  | c :: cs =>
    let rest := splitOnChar sep cs
    if c = sep then [] :: rest
    else
      match rest with
      | [] => [[c]]
      | t :: ts => (c :: t) :: ts

/-- Numeric value of a decimal digit character. -/
def digitVal (c : Char) : Nat := c.toNat - 48

/-- Hexadecimal digit test, as accepted by `parseInt` after a `0x` prefix. -/
def isHexDigit (c : Char) : Bool :=
  c.isDigit || (('a' ≤ c && c ≤ 'f') || ('A' ≤ c && c ≤ 'F'))

/-- Numeric value of a hexadecimal digit character. -/
def hexVal (c : Char) : Nat :=
  if c.isDigit then c.toNat - 48
  else if 'a' ≤ c && c ≤ 'f' then c.toNat - 87
  else c.toNat - 55

/-- Value of the longest leading run of decimal digits; `none` when there is
no leading digit (`parseInt` returns `NaN` there). -/
def parseDecPrefix (l : Str) : Option Nat :=
  let ds := l.takeWhile Char.isDigit
  if ds = [] then none
  else some (ds.foldl (fun a c => a * 10 + digitVal c) 0)

/-- Value of the longest leading run of hexadecimal digits, or `none`. -/
def parseHexPrefix (l : Str) : Option Nat :=
  let ds := l.takeWhile isHexDigit
  if ds = [] then none
  else some (ds.foldl (fun a c => a * 16 + hexVal c) 0)

/-- Magnitude part of `parseInt`: an optional `0x`/`0X` prefix selects base 16,
otherwise the longest decimal-digit prefix is taken. -/
def parseIntMag : Str → Option Nat
  | '0' :: 'x' :: rest => parseHexPrefix rest
  | '0' :: 'X' :: rest => parseHexPrefix rest
  | l => parseDecPrefix l

/-- Model of JavaScript `parseInt(s)` (radix 10/16 auto-detection): skip
leading whitespace, read an optional sign, then the longest digit run;
`none` models `NaN`. -/
def parseIntJS (l : Str) : Option Int :=
  match l.dropWhile isSpace with
  | '-' :: rest => (parseIntMag rest).map (fun n => -(n : Int))
  | '+' :: rest => (parseIntMag rest).map (fun n => (n : Int))
  | rest => (parseIntMag rest).map (fun n => (n : Int))

/-- `n` consecutive integers counting up from `s`. -/
def intRangeAux (s : Int) : Nat → List Int
  | 0 => []
  | n + 1 => s :: intRangeAux (s + 1) n

/-- The ascending run `[s, s+1, ..., e]` produced by the inner
`for (let i = start; i <= end; i++)` loop of `parsePageRange`. -/
def intRange (s e : Int) : List Int :=
  if s ≤ e then intRangeAux s ((e - s).toNat + 1) else []

/-- Pages contributed by one comma-separated token of `parsePageRange`
(`PDFManipulator.tsx`).  A token containing `-` is parsed as `start-end`
(the JavaScript destructuring takes the first two `parseInt` results, and
`start && end` makes `NaN`, a missing component, and `0` all falsy);
otherwise the token is a single page number. -/
def tokenPages (totalPages : Int) (tok : Str) : List Int :=
  let trimmed := trim tok
  if '-' ∈ trimmed then
    let nums := (splitOnChar '-' trimmed).map (fun s => parseIntJS (trim s))
    match nums.getD 0 none, nums.getD 1 none with
    | some s, some e =>
        if s ≠ 0 ∧ e ≠ 0 ∧ s ≤ e ∧ 1 ≤ s ∧ e ≤ totalPages then intRange s e
        else []
    | _, _ => []
  else
    match parseIntJS trimmed with
    | some n => if 1 ≤ n ∧ n ≤ totalPages then [n] else []
    | none => []

/-- Insertion-order deduplication, as performed by `[...new Set(pages)]`. -/
def dedupFirstAux (seen : List Int) : List Int → List Int
  | [] => []
  | x :: xs =>
    if x ∈ seen then dedupFirstAux seen xs
    else x :: dedupFirstAux (x :: seen) xs

/-- `[...new Set(pages)]`: keep the first occurrence of every element. -/
def dedupFirst (l : List Int) : List Int := dedupFirstAux [] l

/-- Model of `parsePageRange(range, totalPages)` from `PDFManipulator.tsx`:
split on commas, collect each token's pages, then
`[...new Set(pages)].sort((a, b) => a - b)`. -/
def parsePageRange (range : Str) (totalPages : Int) : List Int :=
  List.insertionSort (· ≤ ·)
    (dedupFirst ((splitOnChar ',' range).flatMap (tokenPages totalPages)))

/-! ### Operation handlers of `PDFManipulator.tsx`

The merge/split/compress button handlers are modelled as transitions on an
`AppState` that records the list of files emitted so far (each `a.click()`
download appends one file) and the outcome of the last operation (a
destructive toast / thrown error is `some` error, success is `none`).
A PDF document is its list of pages (`List α` for an abstract page type),
and an uploaded PDF pairs a document with its `UploadedFile.id`. -/

/-- Errors surfaced by the handlers (destructive toasts / caught throws). -/
inductive OpError where
  | notEnoughFiles
  | selectOnePdf
  | emptyRangeInput
  | invalidPageRange
  | noFilesSelected
  | compressionUnavailable
  deriving DecidableEq, Repr

/-- An uploaded PDF as seen by `PDFManipulator`: its id and its pages. -/
structure NamedFile (α : Type) where
  id : String
  pages : List α
  deriving DecidableEq, Repr

/-- Host state: files emitted by `a.click()` downloads so far, and the
outcome of the most recent operation. -/
structure AppState (α : Type) where
  emitted : List (List α)
  outcome : Option OpError
  deriving DecidableEq, Repr

/-- The split modes of the UI select: extract a range to one PDF, or one
PDF per page. -/
inductive SplitMode where
  | range
  | individual
  deriving DecidableEq, Repr

/-- `copyPages(pdf, [pageNum - 1])`: the page of `doc` at 1-based index `p`. -/
def pageAt [Inhabited α] (doc : List α) (p : Int) : α :=
  doc.getD (p - 1).toNat default

/-- The pages accumulated by the `for (const fileId of mergeOrder)` loop of
`mergePDFs`: look each id up in `files`, skip missing ids (`if (!file)
continue`), and append that file's pages. -/
def mergedPages (files : List (NamedFile α)) (mergeOrder : List String) : List α :=
  mergeOrder.foldl
    (fun acc fid =>
      match files.find? (fun f => f.id == fid) with
      | none => acc
      | some f => acc ++ f.pages)
    []

/-- Model of the `mergePDFs` handler: fewer than 2 files is an error toast
with nothing downloaded; otherwise the concatenation determined by
`mergeOrder` is saved and downloaded as one file. -/
def runMerge (files : List (NamedFile α)) (mergeOrder : List String)
    (st : AppState α) : AppState α :=
  if files.length < 2 then { st with outcome := some OpError.notEnoughFiles }
  else { emitted := st.emitted ++ [mergedPages files mergeOrder], outcome := none }

/-- Model of the `splitPDF` handler: requires exactly one file and a
non-blank range expression; resolves the expression against the page count;
`pages.length === 0` throws (`Invalid page range`); otherwise `range` mode
downloads one document with the selected pages and `individual` mode
downloads one single-page document per selected page. -/
def runSplit [Inhabited α] (files : List (List α)) (splitRange : Str)
    (mode : SplitMode) (st : AppState α) : AppState α :=
  match files with
  | [doc] =>
    if trim splitRange = [] then { st with outcome := some OpError.emptyRangeInput }
    else
      let pages := parsePageRange splitRange (doc.length : Int)
      if pages = [] then { st with outcome := some OpError.invalidPageRange }
      else
        match mode with
        | SplitMode.range =>
            { emitted := st.emitted ++ [pages.map (pageAt doc)], outcome := none }
        | SplitMode.individual =>
            { emitted := st.emitted ++ pages.map (fun p => [pageAt doc p]),
              outcome := none }
  | _ => { st with outcome := some OpError.selectOnePdf }

/-- Model of the `compressPDF` handler: with no files selected it toasts an
error; otherwise it toasts that compression is unavailable.  In both cases no
file is emitted. -/
def runCompress (files : List (List α)) (st : AppState α) : AppState α :=
  if files.length = 0 then { st with outcome := some OpError.noFilesSelected }
  else { st with outcome := some OpError.compressionUnavailable }

/-! ### The upload handler (`processFiles` in the file-upload component) -/

/-- Upload status, from the `UploadedFile` interface in `Index.tsx`. -/
inductive FileStatus where
  | uploading
  | completed
  | failed
  deriving DecidableEq, Repr

/-- A file offered to the upload handler: name, byte size, MIME type. -/
structure InputFile where
  name : String
  size : Nat
  type : Str
  deriving DecidableEq, Repr

/-- The record pushed by `processFiles` for an accepted file (the random id
is not modelled). -/
structure UploadedRec where
  name : String
  size : Nat
  type : Str
  progress : Nat
  status : FileStatus
  deriving DecidableEq, Repr

/-- The `UploadedFile` record built for an accepted input. -/
def mkUploaded (f : InputFile) : UploadedRec :=
  { name := f.name, size := f.size, type := f.type,
    progress := 100, status := FileStatus.completed }

/-- Model of `processFiles`: each file over 50MB or of an unsupported MIME
type is skipped (`return` inside `forEach`); every surviving file is pushed
with `progress: 100, status: 'completed'`. -/
def processFiles (fileList : List InputFile) : List UploadedRec :=
  fileList.filterMap
    (fun file =>
      if file.size > 50 * 1024 * 1024 then none
      else
        let isImage := (toChars "image/").isPrefixOf file.type
        let isPDF := file.type = toChars "application/pdf"
        if ¬ isImage ∧ ¬ isPDF then none
        else some (mkUploaded file))

/-! ### Rotation controls of the image converter -/

/-- JavaScript `%` on integers: truncated remainder (sign of the dividend). -/
def jsRem (a b : Int) : Int := Int.tmod a b

/-- The clockwise rotation button: `setRotation(prev => (prev + 90) % 360)`. -/
def rotateCW (r : Int) : Int := jsRem (r + 90) 360

/-- The counter-clockwise rotation button:
`setRotation(prev => (prev - 90) % 360)`. -/
def rotateCCW (r : Int) : Int := jsRem (r - 90) 360

/-- A sequence of clicks on the two rotation buttons. -/
inductive RotClick where
  | cw
  | ccw
  deriving DecidableEq, Repr

/-- Apply a sequence of rotation-button clicks to the stored rotation. -/
def applyClicks (r : Int) : List RotClick → Int
  | [] => r
  | RotClick.cw :: rest => applyClicks (rotateCW r) rest
  | RotClick.ccw :: rest => applyClicks (rotateCCW r) rest

/-! ### Helper lemmas: splitting, deduplication, trimming -/

theorem splitOnChar_ne_nil (sep : Char) (l : Str) : splitOnChar sep l ≠ [] := by
  cases l with
  | nil => simp [splitOnChar]
  | cons c cs =>
    simp only [splitOnChar]
    split
    · simp
    · split <;> simp_all

theorem splitOnChar_append_cons (sep : Char) (a b : Str) :
    splitOnChar sep (a ++ sep :: b) = splitOnChar sep a ++ splitOnChar sep b := by
  induction a with
  | nil => simp [splitOnChar]
  | cons c a ih =>
    by_cases hc : c = sep
    · subst hc
      simp [splitOnChar, ih]
    · simp only [List.cons_append, splitOnChar, if_neg hc, List.append_eq]
      rw [ih]
      have hne := splitOnChar_ne_nil sep a
      cases h : splitOnChar sep a with
      | nil => exact absurd h hne
      | cons t ts => simp [h]

theorem splitOnChar_eq_single (sep : Char) (l : Str) (h : sep ∉ l) :
    splitOnChar sep l = [l] := by
  induction l with
  | nil => rfl
  | cons c cs ih =>
    have hc : c ≠ sep := fun hcc => h (hcc ▸ List.mem_cons_self c cs)
    have hcs : sep ∉ cs := fun hm => h (List.mem_cons_of_mem c hm)
    simp only [splitOnChar, if_neg hc, ih hcs]

theorem mem_dedupFirstAux {x : Int} (seen l : List Int) :
    x ∈ dedupFirstAux seen l ↔ x ∈ l ∧ x ∉ seen := by
  induction l generalizing seen with
  | nil => simp [dedupFirstAux]
  | cons y ys ih =>
    simp only [dedupFirstAux]
    split
    · rename_i hy
      rw [ih]
      simp only [List.mem_cons]
      constructor
      · rintro ⟨h1, h2⟩
        exact ⟨Or.inr h1, h2⟩
      · rintro ⟨h1 | h1, h2⟩
        · exact absurd (h1 ▸ hy) h2
        · exact ⟨h1, h2⟩
    · rename_i hy
      simp only [List.mem_cons, ih, List.mem_cons]
      constructor
      · rintro (rfl | ⟨h1, h2⟩)
        · exact ⟨Or.inl rfl, hy⟩
        · exact ⟨Or.inr h1, fun hs => h2 (Or.inr hs)⟩
      · rintro ⟨rfl | h1, h2⟩
        · exact Or.inl rfl
        · by_cases hxy : x = y
          · exact Or.inl hxy
          · exact Or.inr ⟨h1, fun hs => hs.elim hxy h2⟩

theorem nodup_dedupFirstAux (seen l : List Int) : (dedupFirstAux seen l).Nodup := by
  induction l generalizing seen with
  | nil => simp [dedupFirstAux]
  | cons y ys ih =>
    simp only [dedupFirstAux]
    split
    · exact ih seen
    · refine List.nodup_cons.mpr ⟨?_, ih (y :: seen)⟩
      intro hmem
      exact ((mem_dedupFirstAux (y :: seen) ys).mp hmem).2 (List.mem_cons_self y seen)

theorem mem_dedupFirst {x : Int} (l : List Int) : x ∈ dedupFirst l ↔ x ∈ l := by
  simp [dedupFirst, mem_dedupFirstAux]

theorem nodup_dedupFirst (l : List Int) : (dedupFirst l).Nodup :=
  nodup_dedupFirstAux [] l

theorem dedupFirstAux_eq_self (seen l : List Int) (h : l.Nodup)
    (hd : ∀ x ∈ l, x ∉ seen) : dedupFirstAux seen l = l := by
  induction l generalizing seen with
  | nil => rfl
  | cons y ys ih =>
    have hy : y ∉ seen := hd y (List.mem_cons_self y ys)
    simp only [dedupFirstAux, if_neg hy]
    have hns := List.nodup_cons.mp h
    refine congrArg (y :: ·) (ih (y :: seen) hns.2 ?_)
    intro x hx hmem
    rcases List.mem_cons.mp hmem with rfl | hmem
    · exact hns.1 hx
    · exact hd x (List.mem_cons_of_mem y hx) hmem

theorem dedupFirst_eq_self (l : List Int) (h : l.Nodup) : dedupFirst l = l :=
  dedupFirstAux_eq_self [] l h (by simp)

theorem mem_intRangeAux {x s : Int} (n : Nat) :
    x ∈ intRangeAux s n ↔ s ≤ x ∧ x < s + n := by
  induction n generalizing s with
  | zero => simp [intRangeAux]
  | succ m ih =>
    simp only [intRangeAux, List.mem_cons, ih]
    omega

theorem mem_intRange {x s e : Int} : x ∈ intRange s e ↔ s ≤ x ∧ x ≤ e := by
  unfold intRange
  split
  · rename_i hse
    rw [mem_intRangeAux]
    omega
  · rename_i hse
    simp only [List.not_mem_nil, false_iff]
    omega

theorem dropWhile_eq_self_of {p : Char → Bool} {l : Str}
    (h : ∀ c ∈ l, p c = false) : l.dropWhile p = l := by
  cases l with
  | nil => rfl
  | cons c cs => simp [List.dropWhile_cons, h c (List.mem_cons_self c cs)]

theorem trim_eq_self_of {l : Str} (h : ∀ c ∈ l, isSpace c = false) : trim l = l := by
  unfold trim
  rw [dropWhile_eq_self_of h, dropWhile_eq_self_of (fun c hc => h c (List.mem_reverse.mp hc)),
    List.reverse_reverse]

theorem mem_dropWhile_of_mem {p : Char → Bool} {l : Str} {x : Char}
    (hx : x ∈ l) (hp : p x = false) : x ∈ l.dropWhile p := by
  induction l with
  | nil => cases hx
  | cons c cs ih =>
    rw [List.dropWhile_cons]
    rcases List.mem_cons.mp hx with rfl | hx
    · simp [hp]
    · split
      · exact ih hx
      · exact List.mem_cons_of_mem c hx

theorem isSpace_of_trim_eq_nil {l : Str} (h : trim l = []) :
    ∀ c ∈ l, isSpace c = true := by
  intro c hc
  by_contra hns
  have hns' : isSpace c = false := by simpa using hns
  have h1 : c ∈ l.dropWhile isSpace := mem_dropWhile_of_mem hc hns'
  have h2 : c ∈ (l.dropWhile isSpace).reverse.dropWhile isSpace :=
    mem_dropWhile_of_mem (List.mem_reverse.mpr h1) hns'
  have : c ∈ trim l := by
    unfold trim
    exact List.mem_reverse.mpr h2
  rw [h] at this
  cases this

/-! ### Structure of `parsePageRange` results -/

theorem tokenPages_def (P : Int) (tok : Str) :
    tokenPages P tok =
      if '-' ∈ trim tok then
        match ((splitOnChar '-' (trim tok)).map (fun s => parseIntJS (trim s))).getD 0 none,
              ((splitOnChar '-' (trim tok)).map (fun s => parseIntJS (trim s))).getD 1 none with
        | some s, some e =>
            if s ≠ 0 ∧ e ≠ 0 ∧ s ≤ e ∧ 1 ≤ s ∧ e ≤ P then intRange s e else []
        | _, _ => []
      else
        match parseIntJS (trim tok) with
        | some n => if 1 ≤ n ∧ n ≤ P then [n] else []
        | none => [] := rfl

theorem mem_tokenPages {P x : Int} {tok : Str} (hx : x ∈ tokenPages P tok) :
    1 ≤ x ∧ x ≤ P := by
  rw [tokenPages_def] at hx
  split at hx
  · split at hx
    · split at hx
      · rename_i hcond
        rw [mem_intRange] at hx
        omega
      · cases hx
    · cases hx
  · split at hx
    · split at hx
      · rename_i hcond
        have hxe := List.mem_singleton.mp hx
        subst hxe
        omega
      · cases hx
    · cases hx

theorem parsePageRange_perm (E : Str) (P : Int) :
    List.Perm (parsePageRange E P)
      (dedupFirst ((splitOnChar ',' E).flatMap (tokenPages P))) :=
  List.perm_insertionSort _ _

theorem mem_parsePageRange {x : Int} (E : Str) (P : Int) :
    x ∈ parsePageRange E P ↔ ∃ t ∈ splitOnChar ',' E, x ∈ tokenPages P t := by
  rw [(parsePageRange_perm E P).mem_iff, mem_dedupFirst, List.mem_flatMap]

theorem parsePageRange_bounds {x : Int} {E : Str} {P : Int}
    (hx : x ∈ parsePageRange E P) : 1 ≤ x ∧ x ≤ P := by
  rcases (mem_parsePageRange E P).mp hx with ⟨t, _, ht⟩
  exact mem_tokenPages ht

theorem parsePageRange_nodup (E : Str) (P : Int) : (parsePageRange E P).Nodup :=
  (parsePageRange_perm E P).nodup_iff.mpr (nodup_dedupFirst _)

theorem parsePageRange_sorted_le (E : Str) (P : Int) :
    (parsePageRange E P).Sorted (· ≤ ·) :=
  List.sorted_insertionSort _ _

theorem parsePageRange_sorted_lt (E : Str) (P : Int) :
    (parsePageRange E P).Sorted (· < ·) :=
  (parsePageRange_sorted_le E P).lt_of_le (parsePageRange_nodup E P)

/-! ### Decimal numerals and the stringify direction (for idempotence) -/

/-- The character of a decimal digit. -/
def digitChar (d : Nat) : Char := Char.ofNat (48 + d)

/-- Decimal numeral of a natural number, most significant digit first. -/
def natToChars (n : Nat) : Str :=
  if n < 10 then [digitChar n]
  else natToChars (n / 10) ++ [digitChar (n % 10)]
termination_by n
decreasing_by
  simp_wf
  omega

/-- Decimal numeral of an integer (sign, then magnitude). -/
def intToChars (n : Int) : Str :=
  if n < 0 then '-' :: natToChars (-n).toNat else natToChars n.toNat

/-- Join chunks with a separator character (`Array.prototype.join`). -/
def joinSep (sep : Char) : List Str → Str
  | [] => []
  | [t] => t
  | t :: ts => t ++ sep :: joinSep sep ts

/-- `pages.join(',')`: print a page list back to a range expression. -/
def stringifyPages (pages : List Int) : Str :=
  joinSep ',' (pages.map intToChars)

theorem digitChar_facts {d : Nat} (hd : d < 10) :
    (digitChar d).isDigit = true ∧ isSpace (digitChar d) = false ∧
      digitChar d ≠ '-' ∧ digitChar d ≠ '+' ∧ digitChar d ≠ ',' ∧
      digitChar d ≠ 'x' ∧ digitChar d ≠ 'X' := by
  interval_cases d <;> decide

theorem digitVal_digitChar {d : Nat} (hd : d < 10) : digitVal (digitChar d) = d := by
  interval_cases d <;> decide

theorem natToChars_ne_nil (n : Nat) : natToChars n ≠ [] := by
  rw [natToChars]
  split <;> simp

theorem natToChars_mem {n : Nat} {c : Char} (hc : c ∈ natToChars n) :
    ∃ d, d < 10 ∧ c = digitChar d := by
  induction n using Nat.strong_induction_on with
  | _ n ih =>
    rw [natToChars] at hc
    split at hc
    · rename_i h
      have hce := List.mem_singleton.mp hc
      exact ⟨n, h, hce⟩
    · rename_i h
      rcases List.mem_append.mp hc with hc1 | hc1
      · exact ih (n / 10) (by omega) hc1
      · have hce := List.mem_singleton.mp hc1
        exact ⟨n % 10, by omega, hce⟩

theorem natToChars_char_facts {n : Nat} {c : Char} (hc : c ∈ natToChars n) :
    c.isDigit = true ∧ isSpace c = false ∧ c ≠ '-' ∧ c ≠ '+' ∧ c ≠ ',' ∧
      c ≠ 'x' ∧ c ≠ 'X' := by
  rcases natToChars_mem hc with ⟨d, hd, hce⟩
  subst hce
  exact digitChar_facts hd

theorem natToChars_foldl (n : Nat) :
    ∀ a : Nat, (natToChars n).foldl (fun a c => a * 10 + digitVal c) a =
      a * 10 ^ (natToChars n).length + n := by
  induction n using Nat.strong_induction_on with
  | _ n ih =>
    intro a
    rw [natToChars]
    split
    · rename_i h
      simp only [List.foldl_cons, List.foldl_nil, List.length_singleton,
        digitVal_digitChar h, pow_one]
    · rename_i h
      rw [List.foldl_append, ih (n / 10) (by omega) a]
      have h10 : n % 10 < 10 := by omega
      simp only [List.foldl_cons, List.foldl_nil, List.length_append,
        List.length_singleton, digitVal_digitChar h10, pow_succ]
      calc (a * 10 ^ (natToChars (n / 10)).length + n / 10) * 10 + n % 10
          = a * (10 ^ (natToChars (n / 10)).length * 10) + (n / 10 * 10 + n % 10) := by
            ring
        _ = a * (10 ^ (natToChars (n / 10)).length * 10) + n := by
            rw [show n / 10 * 10 + n % 10 = n by omega]

theorem takeWhile_eq_self_of {p : Char → Bool} {l : Str}
    (h : ∀ c ∈ l, p c = true) : l.takeWhile p = l := by
  induction l with
  | nil => rfl
  | cons c cs ih =>
    rw [List.takeWhile_cons, h c (List.mem_cons_self c cs)]
    simp [ih fun d hd => h d (List.mem_cons_of_mem c hd)]

theorem parseDecPrefix_natToChars (n : Nat) : parseDecPrefix (natToChars n) = some n := by
  have hd : ∀ c ∈ natToChars n, c.isDigit = true :=
    fun c hc => (natToChars_char_facts hc).1
  simp only [parseDecPrefix, takeWhile_eq_self_of hd, if_neg (natToChars_ne_nil n)]
  rw [natToChars_foldl n 0]
  simp

theorem parseIntMag_natToChars (n : Nat) : parseIntMag (natToChars n) = some n := by
  have hfacts := fun c hc => @natToChars_char_facts n c hc
  obtain ⟨c, rest, hcr⟩ : ∃ c rest, natToChars n = c :: rest := by
    cases h : natToChars n with
    | nil => exact absurd h (natToChars_ne_nil n)
    | cons c rest => exact ⟨c, rest, rfl⟩
  rw [hcr]
  unfold parseIntMag
  split
  · rename_i r heq
    have hx : 'x' ∈ natToChars n := by
      rw [hcr, heq]
      exact List.mem_cons_of_mem _ (List.mem_cons_self _ _)
    exact absurd rfl (hfacts 'x' hx).2.2.2.2.2.1
  · rename_i r heq
    have hx : 'X' ∈ natToChars n := by
      rw [hcr, heq]
      exact List.mem_cons_of_mem _ (List.mem_cons_self _ _)
    exact absurd rfl (hfacts 'X' hx).2.2.2.2.2.2
  · rw [← hcr]
    exact parseDecPrefix_natToChars n

theorem parseIntJS_natToChars (n : Nat) : parseIntJS (natToChars n) = some (n : Int) := by
  have hfacts := fun c hc => @natToChars_char_facts n c hc
  have hdw : (natToChars n).dropWhile isSpace = natToChars n :=
    dropWhile_eq_self_of (fun c hc => (hfacts c hc).2.1)
  obtain ⟨c, rest, hcr⟩ : ∃ c rest, natToChars n = c :: rest := by
    cases h : natToChars n with
    | nil => exact absurd h (natToChars_ne_nil n)
    | cons c rest => exact ⟨c, rest, rfl⟩
  have hhead : c ∈ natToChars n := by
    rw [hcr]
    exact List.mem_cons_self _ _
  unfold parseIntJS
  rw [hdw, hcr]
  split
  · rename_i r heq
    have : c = '-' := by injection heq with h1 _
    exact absurd this (hfacts c hhead).2.2.1
  · rename_i r heq
    have : c = '+' := by injection heq with h1 _
    exact absurd this (hfacts c hhead).2.2.2.1
  · rw [← hcr, parseIntMag_natToChars n]
    rfl

theorem splitOnChar_joinSep (sep : Char) (ts : List Str) (hne : ts ≠ [])
    (h : ∀ t ∈ ts, sep ∉ t) : splitOnChar sep (joinSep sep ts) = ts := by
  induction ts with
  | nil => exact absurd rfl hne
  | cons t ts ih =>
    cases ts with
    | nil => exact splitOnChar_eq_single sep t (h t (List.mem_cons_self _ _))
    | cons t2 ts2 =>
      have hjoin : joinSep sep (t :: t2 :: ts2) = t ++ sep :: joinSep sep (t2 :: ts2) := rfl
      rw [hjoin, splitOnChar_append_cons,
        splitOnChar_eq_single sep t (h t (List.mem_cons_self _ _)),
        ih (by simp) (fun u hu => h u (List.mem_cons_of_mem _ hu))]
      rfl

theorem intToChars_nonneg {x : Int} (hx : 0 ≤ x) : intToChars x = natToChars x.toNat := by
  rw [intToChars, if_neg (by omega)]

theorem tokenPages_intToChars {P x : Int} (h1 : 1 ≤ x) (h2 : x ≤ P) :
    tokenPages P (intToChars x) = [x] := by
  rw [intToChars_nonneg (by omega)]
  have hfacts := fun c hc => @natToChars_char_facts x.toNat c hc
  have htrim : trim (natToChars x.toNat) = natToChars x.toNat :=
    trim_eq_self_of (fun c hc => (hfacts c hc).2.1)
  have hdash : '-' ∉ natToChars x.toNat := by
    intro hm
    exact absurd rfl (hfacts '-' hm).2.2.1
  rw [tokenPages_def, htrim, if_neg hdash, parseIntJS_natToChars]
  have hxt : ((x.toNat : Int)) = x := by omega
  rw [hxt]
  show (if 1 ≤ x ∧ x ≤ P then [x] else []) = [x]
  rw [if_pos ⟨h1, h2⟩]

theorem flatMap_tokenPages_map {P : Int} {L : List Int}
    (h : ∀ x ∈ L, tokenPages P (intToChars x) = [x]) :
    (L.map intToChars).flatMap (tokenPages P) = L := by
  induction L with
  | nil => rfl
  | cons x xs ih =>
    rw [List.map_cons, List.flatMap_cons, h x (List.mem_cons_self _ _),
      ih (fun y hy => h y (List.mem_cons_of_mem _ hy))]
    rfl

theorem comma_not_mem_intToChars {x : Int} (hx : 0 ≤ x) : ',' ∉ intToChars x := by
  rw [intToChars_nonneg hx]
  intro hm
  exact absurd rfl (natToChars_char_facts hm).2.2.2.2.1

/-- Resolving, stringifying, and resolving again is the identity on the
resolved list: the core of the idempotence property. -/
theorem parsePageRange_stringify (E : Str) (P : Int) :
    parsePageRange (stringifyPages (parsePageRange E P)) P = parsePageRange E P := by
  have hnodup := parsePageRange_nodup E P
  have hsorted := parsePageRange_sorted_le E P
  have hbounds := fun x hx => @parsePageRange_bounds x E P hx
  cases hL : parsePageRange E P with
  | nil => rfl
  | cons y ys =>
    rw [hL] at hnodup hsorted hbounds
    have hmem : ∀ t ∈ (y :: ys).map intToChars, ',' ∉ t := by
      intro t ht
      rcases List.mem_map.mp ht with ⟨x, hx, hxe⟩
      subst hxe
      exact comma_not_mem_intToChars (by have := hbounds x hx; omega)
    have htok : ∀ x ∈ (y :: ys), tokenPages P (intToChars x) = [x] := by
      intro x hx
      have := hbounds x hx
      exact tokenPages_intToChars this.1 this.2
    show List.insertionSort (· ≤ ·)
        (dedupFirst ((splitOnChar ','
          (joinSep ',' ((y :: ys).map intToChars))).flatMap (tokenPages P))) = y :: ys
    rw [splitOnChar_joinSep ',' _ (by simp) hmem, flatMap_tokenPages_map htok,
      dedupFirst_eq_self _ hnodup, hsorted.insertionSort_eq]

/-! ### Invalid tokens are dropped -/

/-- The invalid-token categories of the spec for one comma-free token: a
reversed range (`end < start`), an out-of-bounds page (wholly or partially
outside `1..P`), or a non-numeric component (`parseInt` returned `NaN`, or a
range component is missing, or a component is the falsy `0`). -/
def tokenInvalid (P : Int) (tok : Str) : Prop :=
  if '-' ∈ trim tok then
    match ((splitOnChar '-' (trim tok)).map (fun s => parseIntJS (trim s))).getD 0 none,
          ((splitOnChar '-' (trim tok)).map (fun s => parseIntJS (trim s))).getD 1 none with
    | some s, some e => e < s ∨ s < 1 ∨ P < e ∨ s = 0 ∨ e = 0
    | _, _ => True
  else
    match parseIntJS (trim tok) with
    | some n => n < 1 ∨ P < n
    | none => True

theorem tokenPages_eq_nil_of_invalid {P : Int} {tok : Str} (h : tokenInvalid P tok) :
    tokenPages P tok = [] := by
  rw [tokenPages_def]
  unfold tokenInvalid at h
  by_cases hdash : '-' ∈ trim tok
  · rw [if_pos hdash] at h ⊢
    cases h0 : ((splitOnChar '-' (trim tok)).map (fun s => parseIntJS (trim s))).getD 0 none with
    | none => rfl
    | some s =>
      rw [h0] at h
      cases h1 : ((splitOnChar '-' (trim tok)).map (fun s => parseIntJS (trim s))).getD 1 none with
      | none => rfl
      | some e =>
        rw [h1] at h
        have hd : e < s ∨ s < 1 ∨ P < e ∨ s = 0 ∨ e = 0 := h
        show (if s ≠ 0 ∧ e ≠ 0 ∧ s ≤ e ∧ 1 ≤ s ∧ e ≤ P then intRange s e else []) = []
        have hng : ¬ (s ≠ 0 ∧ e ≠ 0 ∧ s ≤ e ∧ 1 ≤ s ∧ e ≤ P) := by
          rintro ⟨hs0, he0, hse, h1s, heP⟩
          rcases hd with h2 | h2 | h2 | h2 | h2 <;> omega
        rw [if_neg hng]
  · rw [if_neg hdash] at h ⊢
    cases hp : parseIntJS (trim tok) with
    | none => rfl
    | some n =>
      rw [hp] at h
      have hd : n < 1 ∨ P < n := h
      show (if 1 ≤ n ∧ n ≤ P then [n] else []) = []
      have hng : ¬ (1 ≤ n ∧ n ≤ P) := by
        rintro ⟨ha, hb⟩
        rcases hd with h2 | h2 <;> omega
      rw [if_neg hng]

/-- Inserting a comma-separated invalid token anywhere in an expression does
not change the resolved pages (and in particular never makes resolution
fail): the token is dropped silently. -/
theorem parsePageRange_drop_invalid (P : Int) (E1 E2 tok : Str)
    (hc : ',' ∉ tok) (hinv : tokenInvalid P tok) :
    parsePageRange (E1 ++ ',' :: (tok ++ ',' :: E2)) P =
      parsePageRange (E1 ++ ',' :: E2) P := by
  rw [parsePageRange, parsePageRange,
    splitOnChar_append_cons ',' E1 (tok ++ ',' :: E2),
    splitOnChar_append_cons ',' tok E2,
    splitOnChar_eq_single ',' tok hc,
    splitOnChar_append_cons ',' E1 E2]
  simp [List.flatMap_append, tokenPages_eq_nil_of_invalid hinv]

/-- A blank (all-whitespace) expression resolves to no pages. -/
theorem parsePageRange_of_trim_nil {E : Str} (h : trim E = []) (P : Int) :
    parsePageRange E P = [] := by
  have hsp := isSpace_of_trim_eq_nil h
  have hnc : ',' ∉ E := by
    intro hm
    have := hsp ',' hm
    simp [isSpace] at this
  have htok : tokenPages P E = [] := by
    rw [tokenPages_def, h]
    have hpn : parseIntJS ([] : Str) = none := rfl
    simp [hpn]
  rw [parsePageRange, splitOnChar_eq_single ',' E hnc]
  simp [htok, dedupFirst, dedupFirstAux]

/-! ### Merge lemmas -/

/-- The pages contributed by one id of the merge order: the pages of the
first file with that id, or nothing when no file matches. -/
def lookupPages (files : List (NamedFile α)) (fid : String) : List α :=
  match files.find? (fun f => f.id == fid) with
  | none => []
  | some f => f.pages

theorem flatMap_congr_mem {l : List β} {f g : β → List α}
    (h : ∀ x ∈ l, f x = g x) : l.flatMap f = l.flatMap g := by
  induction l with
  | nil => rfl
  | cons x xs ih =>
    rw [List.flatMap_cons, List.flatMap_cons, h x (List.mem_cons_self _ _),
      ih (fun y hy => h y (List.mem_cons_of_mem _ hy))]

theorem mergedPages_spec (files : List (NamedFile α)) (order : List String) :
    mergedPages files order = order.flatMap (lookupPages files) := by
  suffices hgen : ∀ (ord : List String) (acc : List α),
      ord.foldl
        (fun acc fid =>
          match files.find? (fun f => f.id == fid) with
          | none => acc
          | some f => acc ++ f.pages)
        acc = acc ++ ord.flatMap (lookupPages files) by
    simpa using hgen order []
  intro ord
  induction ord with
  | nil => simp
  | cons fid rest ih =>
    intro acc
    rw [List.foldl_cons, List.flatMap_cons]
    cases hf : files.find? (fun f => f.id == fid) with
    | none => rw [ih acc]; simp [lookupPages, hf]
    | some f => rw [ih (acc ++ f.pages)]; simp [lookupPages, hf]

theorem mergedPages_map_id {files : List (NamedFile α)}
    (hn : (files.map (fun f => f.id)).Nodup) :
    mergedPages files (files.map (fun f => f.id)) =
      files.flatMap (fun f => f.pages) := by
  rw [mergedPages_spec]
  induction files with
  | nil => rfl
  | cons f rest ih =>
    rw [List.map_cons, List.flatMap_cons, List.flatMap_cons]
    have hfind : (f :: rest).find? (fun g => g.id == f.id) = some f := by
      simp [List.find?]
    have hhead : lookupPages (f :: rest) f.id = f.pages := by
      simp [lookupPages, hfind]
    rw [hhead]
    rw [List.map_cons] at hn
    have hnr := List.nodup_cons.mp hn
    have hrest : ∀ fid ∈ rest.map (fun g => g.id),
        lookupPages (f :: rest) fid = lookupPages rest fid := by
      intro fid hfid
      have hfne : (f.id == fid) = false := by
        rcases List.mem_map.mp hfid with ⟨g, hg, hge⟩
        subst hge
        have : f.id ≠ g.id := fun hcontra => hnr.1 (hcontra ▸ List.mem_map_of_mem _ hg)
        simpa using this
      simp [lookupPages, List.find?, hfne]
    rw [flatMap_congr_mem hrest, ih hnr.2]

/-! ### Claim theorems -/

/-- **C1.** For every expression string and every page count, the result of
`parsePageRange` is strictly ascending — hence deduplicated and sorted
ascending — regardless of the order of tokens in the input; resolving
`"5,1-3,3"` against any page count of at least 5 yields `[1,2,3,5]`, and
resolving `"1-3,2"` against page count 5 yields `[1,2,3]`. -/
theorem claim_C1 :
    (∀ (E : Str) (P : Int), (parsePageRange E P).Sorted (· < ·)) ∧
    (∀ P : Int, 5 ≤ P → parsePageRange (toChars "5,1-3,3") P = [1, 2, 3, 5]) ∧
    parsePageRange (toChars "1-3,2") 5 = [1, 2, 3] := by
  refine ⟨fun E P => parsePageRange_sorted_lt E P, fun P hP => ?_, by decide⟩
  have h3P : (3 : Int) ≤ P := by omega
  have t5 : tokenPages P (toChars "5") = [5] := by
    rw [tokenPages_def]
    rw [if_neg (by decide : ¬ ('-' ∈ trim (toChars "5")))]
    rw [show parseIntJS (trim (toChars "5")) = some 5 from rfl]
    show (if (1 : Int) ≤ 5 ∧ (5 : Int) ≤ P then [(5 : Int)] else []) = [5]
    rw [if_pos ⟨by norm_num, hP⟩]
  have t13 : tokenPages P (toChars "1-3") = [1, 2, 3] := by
    rw [tokenPages_def]
    rw [if_pos (by decide : '-' ∈ trim (toChars "1-3"))]
    rw [show ((splitOnChar '-' (trim (toChars "1-3"))).map
        (fun s => parseIntJS (trim s))).getD 0 none = some 1 from rfl]
    rw [show ((splitOnChar '-' (trim (toChars "1-3"))).map
        (fun s => parseIntJS (trim s))).getD 1 none = some 3 from rfl]
    show (if (1 : Int) ≠ 0 ∧ (3 : Int) ≠ 0 ∧ (1 : Int) ≤ 3 ∧ (1 : Int) ≤ 1 ∧ (3 : Int) ≤ P
        then intRange 1 3 else []) = [1, 2, 3]
    rw [if_pos ⟨by norm_num, by norm_num, by norm_num, by norm_num, h3P⟩]
    decide
  have t3 : tokenPages P (toChars "3") = [3] := by
    rw [tokenPages_def]
    rw [if_neg (by decide : ¬ ('-' ∈ trim (toChars "3")))]
    rw [show parseIntJS (trim (toChars "3")) = some 3 from rfl]
    show (if (1 : Int) ≤ 3 ∧ (3 : Int) ≤ P then [(3 : Int)] else []) = [3]
    rw [if_pos ⟨by norm_num, h3P⟩]
  have hsplit : splitOnChar ',' (toChars "5,1-3,3") =
      [toChars "5", toChars "1-3", toChars "3"] := rfl
  rw [parsePageRange, hsplit, List.flatMap_cons, List.flatMap_cons, List.flatMap_cons,
    List.flatMap_nil, t5, t13, t3]
  decide

/-- **C1 witness**: the `P ≥ 5` part of C1 instantiated at page count 7. -/
theorem claim_C1_witness :
    (5 : Int) ≤ 7 ∧ parsePageRange (toChars "5,1-3,3") 7 = [1, 2, 3, 5] :=
  ⟨by norm_num, claim_C1.2.1 7 (by norm_num)⟩

/-- **C2.** Any comma-free token that is out of bounds, non-numeric, or a
reversed range contributes no pages and never makes resolution fail:
inserting it into any expression leaves the resolved pages unchanged.  In
particular `"1-3,7-9"` against page count 5 yields `[1,2,3]`. -/
theorem claim_C2 :
    (∀ (P : Int) (E1 E2 tok : Str), ',' ∉ tok → tokenInvalid P tok →
      parsePageRange (E1 ++ ',' :: (tok ++ ',' :: E2)) P =
        parsePageRange (E1 ++ ',' :: E2) P) ∧
    parsePageRange (toChars "1-3,7-9") 5 = [1, 2, 3] :=
  ⟨fun P E1 E2 tok hc hinv => parsePageRange_drop_invalid P E1 E2 tok hc hinv, by decide⟩

/-- **C2 witness**: dropping the out-of-bounds token `"7-9"` from
`"1,7-9,2"` at page count 5. -/
theorem claim_C2_witness :
    (',' ∉ toChars "7-9") ∧ tokenInvalid 5 (toChars "7-9") ∧
    parsePageRange (toChars "1" ++ ',' :: (toChars "7-9" ++ ',' :: toChars "2")) 5 =
      parsePageRange (toChars "1" ++ ',' :: toChars "2") 5 := by
  have hinv : tokenInvalid 5 (toChars "7-9") := by
    show (9 : Int) < 7 ∨ (7 : Int) < 1 ∨ (5 : Int) < 9 ∨ (7 : Int) = 0 ∨ (9 : Int) = 0
    norm_num
  exact ⟨by decide, hinv, claim_C2.1 5 (toChars "1") (toChars "2") (toChars "7-9")
    (by decide) hinv⟩

/-- **C3.** When every token of the expression is dropped (the resolved page
list is empty), the split handler fails with an error and emits no output
document. -/
theorem claim_C3 {α : Type} [Inhabited α] (doc : List α) (E : Str)
    (mode : SplitMode) (st : AppState α)
    (h : parsePageRange E (doc.length : Int) = []) :
    ∃ err, runSplit [doc] E mode st =
      { emitted := st.emitted, outcome := some err } := by
  by_cases ht : trim E = []
  · refine ⟨OpError.emptyRangeInput, ?_⟩
    simp only [runSplit]
    rw [if_pos ht]
  · refine ⟨OpError.invalidPageRange, ?_⟩
    simp only [runSplit]
    rw [if_neg ht, if_pos h]

/-- **C3 witness**: splitting a 1-page document with the out-of-range
expression `"10"` fails and emits nothing. -/
theorem claim_C3_witness :
    parsePageRange (toChars "10") ((([42] : List Nat).length : Int)) = [] ∧
    ∃ err, runSplit [[42]] (toChars "10") SplitMode.range (AppState.mk [] none) =
      { emitted := [], outcome := some err } :=
  ⟨by decide, claim_C3 [42] (toChars "10") SplitMode.range (AppState.mk [] none) (by decide)⟩

/-- **C9.** Page-range resolution is idempotent: resolving, printing the
resolved ascending list back to a comma-separated expression, and resolving
again yields the same list.  (Purity is intrinsic to the embedding: the
resolver is a function of its two arguments only.) -/
theorem claim_C9 : ∀ (E : Str) (P : Int),
    parsePageRange (stringifyPages (parsePageRange E P)) P = parsePageRange E P :=
  fun E P => parsePageRange_stringify E P

/-- **C4.** Merge concatenates the pages of all supplied documents in the
given document order, preserving each document's internal page order; in
particular for two documents the first `A.pages.length` positions of the
output reproduce A's pages in order. -/
theorem claim_C4 {α : Type} :
    (∀ (files : List (NamedFile α)) (st : AppState α),
      2 ≤ files.length → (files.map (fun f => f.id)).Nodup →
      runMerge files (files.map (fun f => f.id)) st =
        { emitted := st.emitted ++ [files.flatMap (fun f => f.pages)],
          outcome := none }) ∧
    (∀ (A B : NamedFile α) (st : AppState α), A.id ≠ B.id →
      runMerge [A, B] [A.id, B.id] st =
        { emitted := st.emitted ++ [A.pages ++ B.pages], outcome := none } ∧
      (A.pages ++ B.pages).take A.pages.length = A.pages) := by
  constructor
  · intro files st h2 hn
    unfold runMerge
    rw [if_neg (by omega), mergedPages_map_id hn]
  · intro A B st hAB
    have hn : (([A, B] : List (NamedFile α)).map (fun f => f.id)).Nodup := by
      simp [hAB]
    have hm := mergedPages_map_id hn
    simp only [List.map_cons, List.map_nil, List.flatMap_cons, List.flatMap_nil,
      List.append_nil] at hm
    constructor
    · unfold runMerge
      rw [if_neg (by simp), hm]
    · exact List.take_left A.pages B.pages

/-- **C4 witness**: merging `A = [1,2]` and `B = [3]` in order. -/
theorem claim_C4_witness :
    runMerge [NamedFile.mk "a" [1, 2], NamedFile.mk "b" ([3] : List Nat)]
        ["a", "b"] (AppState.mk [] none) =
      { emitted := [[1, 2, 3]], outcome := none } := by
  have h := (claim_C4.2 (NamedFile.mk "a" [1, 2]) (NamedFile.mk "b" ([3] : List Nat))
    (AppState.mk [] none) (by decide)).1
  exact h.trans (by decide)

/-- **C5 counterexample**: `mergePDFs` performs no zero-page check — merging
a zero-page document with `[42]` succeeds (outcome `none`) and downloads the
concatenation, rather than failing with an `EmptyDocumentError` (no such
error exists in the code). -/
theorem claim_C5_counterexample :
    (NamedFile.mk "a" ([] : List Nat)).pages = [] ∧
    runMerge [NamedFile.mk "a" ([] : List Nat), NamedFile.mk "b" [42]]
        ["a", "b"] (AppState.mk [] none) =
      { emitted := [[42]], outcome := none } :=
  ⟨rfl, by decide⟩

/-- **C5 (amended).** Merge never fails because of a zero-page input: it
fails exactly when fewer than 2 files are supplied, and a zero-page input
merely contributes no pages to the merged output. -/
theorem claim_C5_amended {α : Type} :
    (∀ (files : List (NamedFile α)) (order : List String) (st : AppState α),
      (runMerge files order st).outcome.isSome = true ↔ files.length < 2) ∧
    (∀ (A B : NamedFile α) (st : AppState α), A.pages = [] → A.id ≠ B.id →
      runMerge [A, B] [A.id, B.id] st =
        { emitted := st.emitted ++ [B.pages], outcome := none }) := by
  constructor
  · intro files order st
    unfold runMerge
    by_cases h2 : files.length < 2
    · rw [if_pos h2]
      simp [h2]
    · rw [if_neg h2]
      simp [h2]
  · intro A B st hA hAB
    have hn : (([A, B] : List (NamedFile α)).map (fun f => f.id)).Nodup := by
      simp [hAB]
    have hm := mergedPages_map_id hn
    simp only [List.map_cons, List.map_nil, List.flatMap_cons, List.flatMap_nil,
      List.append_nil, hA, List.nil_append] at hm
    unfold runMerge
    rw [if_neg (by simp), hm]

/-- **C5 (amended) witness**: the zero-page case of the amended claim at a
concrete input. -/
theorem claim_C5_amended_witness :
    runMerge [NamedFile.mk "a" ([] : List Nat), NamedFile.mk "b" [42]]
        ["a", "b"] (AppState.mk [[7]] none) =
      { emitted := [[7], [42]], outcome := none } := by
  have h := claim_C5_amended.2 (NamedFile.mk "a" ([] : List Nat))
    (NamedFile.mk "b" ([42] : List Nat)) (AppState.mk [[7]] none) rfl (by decide)
  exact h.trans (by decide)

/-- **C6.** Split-to-individual-pages with a non-empty resolved selection
emits exactly one single-page document per selected page, in ascending page
order, each holding the corresponding source page. -/
theorem claim_C6 {α : Type} [Inhabited α] (doc : List α) (E : Str)
    (st : AppState α) (h : parsePageRange E (doc.length : Int) ≠ []) :
    runSplit [doc] E SplitMode.individual st =
      { emitted := st.emitted ++
          (parsePageRange E (doc.length : Int)).map (fun p => [pageAt doc p]),
        outcome := none } ∧
    (parsePageRange E (doc.length : Int)).Sorted (· < ·) ∧
    (∀ p ∈ parsePageRange E (doc.length : Int),
      1 ≤ p ∧ p ≤ (doc.length : Int)) := by
  refine ⟨?_, parsePageRange_sorted_lt _ _, fun p hp => parsePageRange_bounds hp⟩
  have ht : ¬ trim E = [] := fun htr => h (parsePageRange_of_trim_nil htr _)
  simp only [runSplit]
  rw [if_neg ht, if_neg h]

/-- **C6 witness**: splitting a 5-page document with selection `"2,4"` emits
exactly the two single-page documents for pages 2 and 4, in that order. -/
theorem claim_C6_witness :
    parsePageRange (toChars "2,4") ((([10, 20, 30, 40, 50] : List Nat).length : Int)) ≠ [] ∧
    runSplit [[10, 20, 30, 40, 50]] (toChars "2,4") SplitMode.individual
        (AppState.mk [] none) = AppState.mk [[20], [40]] none := by
  have h := claim_C6 ([10, 20, 30, 40, 50] : List Nat) (toChars "2,4")
    (AppState.mk [] none) (by decide)
  exact ⟨by decide, h.1.trans (by decide)⟩

/-- Every run of the split handler either fails leaving the emitted files
untouched, or succeeds. -/
theorem runSplit_fail_eq {α : Type} [Inhabited α] (files : List (List α))
    (E : Str) (mode : SplitMode) (st : AppState α) :
    (∃ err, runSplit files E mode st =
      { emitted := st.emitted, outcome := some err }) ∨
    (runSplit files E mode st).outcome = none := by
  rcases files with _ | ⟨doc, _ | ⟨d2, rest⟩⟩
  · exact Or.inl ⟨OpError.selectOnePdf, rfl⟩
  · by_cases ht : trim E = []
    · refine Or.inl ⟨OpError.emptyRangeInput, ?_⟩
      simp only [runSplit]
      rw [if_pos ht]
    · by_cases hp : parsePageRange E (doc.length : Int) = []
      · refine Or.inl ⟨OpError.invalidPageRange, ?_⟩
        simp only [runSplit]
        rw [if_neg ht, if_pos hp]
      · right
        simp only [runSplit]
        rw [if_neg ht, if_neg hp]
        cases mode <;> rfl
  · exact Or.inl ⟨OpError.selectOnePdf, rfl⟩

/-- **C7.** No partial output on failure: whenever the merge, split or
compress handler ends in an error, the list of files already emitted is
exactly what it was before the operation (and the compress handler never
emits anything at all).  Source documents are immutable values of the
embedding, so they are unaffected by construction. -/
theorem claim_C7 {α : Type} [Inhabited α] :
    (∀ (files : List (List α)) (E : Str) (mode : SplitMode) (st : AppState α)
        (err : OpError), (runSplit files E mode st).outcome = some err →
      (runSplit files E mode st).emitted = st.emitted) ∧
    (∀ (files : List (NamedFile α)) (order : List String) (st : AppState α)
        (err : OpError), (runMerge files order st).outcome = some err →
      (runMerge files order st).emitted = st.emitted) ∧
    (∀ (files : List (List α)) (st : AppState α),
      (runCompress files st).emitted = st.emitted) := by
  refine ⟨fun files E mode st err hout => ?_, fun files order st err hout => ?_,
    fun files st => ?_⟩
  · rcases runSplit_fail_eq files E mode st with ⟨e2, he⟩ | hok
    · rw [he]
    · rw [hok] at hout
      cases hout
  · unfold runMerge at hout ⊢
    by_cases h2 : files.length < 2
    · rw [if_pos h2]
    · rw [if_neg h2] at hout
      cases hout
  · unfold runCompress
    by_cases h0 : files.length = 0
    · rw [if_pos h0]
    · rw [if_neg h0]

/-- **C7 witness**: a failing split (no file selected) leaves the previously
emitted file list `[[1]]` untouched. -/
theorem claim_C7_witness :
    (runSplit ([] : List (List Nat)) (toChars "1") SplitMode.range
      (AppState.mk [[1]] none)).outcome = some OpError.selectOnePdf ∧
    (runSplit ([] : List (List Nat)) (toChars "1") SplitMode.range
      (AppState.mk [[1]] none)).emitted = [[1]] :=
  ⟨by decide, claim_C7.1 [] (toChars "1") SplitMode.range (AppState.mk [[1]] none)
    OpError.selectOnePdf (by decide)⟩

/-- **C8**: the claimed invariant fails in the code.  One counter-clockwise
click starting from rotation 0 evaluates `(0 - 90) % 360`, which in
JavaScript (truncated remainder) is `-90` — outside `{0, 90, 180, 270}` and
below the rotation slider's declared minimum of 0.  Clockwise clicks do stay
inside the set, which marks the negative-remainder case as the slip. -/
theorem claim_C8_bug :
    applyClicks 0 [RotClick.ccw] = -90 ∧
    rotateCCW 0 = -90 ∧
    (-90 : Int) ∉ ([0, 90, 180, 270] : List Int) ∧
    (∀ r ∈ ([0, 90, 180, 270] : List Int),
      rotateCW r ∈ ([0, 90, 180, 270] : List Int)) := by
  decide

/-- The acceptance condition enforced by `processFiles`: at most 50MB, and a
MIME type that starts with `image/` or equals `application/pdf`. -/
def acceptCond (f : InputFile) : Prop :=
  f.size ≤ 50 * 1024 * 1024 ∧
    ((toChars "image/").isPrefixOf f.type = true ∨ f.type = toChars "application/pdf")

instance (f : InputFile) : Decidable (acceptCond f) := by
  unfold acceptCond
  infer_instance

theorem processFiles_eq (fs : List InputFile) :
    processFiles fs =
      fs.filterMap (fun f => if acceptCond f then some (mkUploaded f) else none) := by
  unfold processFiles
  congr 1
  funext f
  show (if f.size > 50 * 1024 * 1024 then none
      else if ¬ ((toChars "image/").isPrefixOf f.type = true) ∧
          ¬ (f.type = toChars "application/pdf") then none
        else some (mkUploaded f)) =
    if acceptCond f then some (mkUploaded f) else none
  by_cases h1 : f.size > 50 * 1024 * 1024
  · rw [if_pos h1, if_neg (fun hc : acceptCond f => absurd hc.1 (by omega))]
  · rw [if_neg h1]
    by_cases h2 : (toChars "image/").isPrefixOf f.type = true ∨
        f.type = toChars "application/pdf"
    · rw [if_neg (fun hc => h2.elim hc.1 hc.2), if_pos ⟨by omega, h2⟩]
    · rw [if_pos ⟨fun hA => h2 (Or.inl hA), fun hB => h2 (Or.inr hB)⟩,
        if_neg (fun hc : acceptCond f => h2 hc.2)]

/-- **C10.** A file is accepted by the upload handler exactly when its size
is at most `50*1024*1024` bytes and its MIME type starts with `image/` or
equals `application/pdf`; every accepted file is emitted with status
`completed` and progress 100; a rejected file is simply omitted, leaving the
other files' acceptance unchanged. -/
theorem claim_C10 :
    (∀ (fs : List InputFile), ∀ u ∈ processFiles fs,
      u.progress = 100 ∧ u.status = FileStatus.completed) ∧
    (∀ f : InputFile, processFiles [f] = [mkUploaded f] ↔ acceptCond f) ∧
    (∀ (l1 l2 : List InputFile) (f : InputFile), ¬ acceptCond f →
      processFiles (l1 ++ f :: l2) = processFiles (l1 ++ l2)) ∧
    (∀ (fs : List InputFile) (f : InputFile), f ∈ fs → acceptCond f →
      mkUploaded f ∈ processFiles fs) := by
  refine ⟨?_, ?_, ?_, ?_⟩
  · intro fs u hu
    rw [processFiles_eq] at hu
    rcases List.mem_filterMap.mp hu with ⟨f, hf, hfa⟩
    by_cases h : acceptCond f
    · rw [if_pos h] at hfa
      have he := Option.some.inj hfa
      subst he
      exact ⟨rfl, rfl⟩
    · rw [if_neg h] at hfa
      cases hfa
  · intro f
    rw [processFiles_eq]
    by_cases h : acceptCond f
    · simp [h]
    · simp [h]
  · intro l1 l2 f hf
    rw [processFiles_eq, processFiles_eq, List.filterMap_append,
      List.filterMap_append, List.filterMap_cons, if_neg hf]
  · intro fs f hf hacc
    rw [processFiles_eq]
    exact List.mem_filterMap.mpr ⟨f, hf, by rw [if_pos hacc]⟩

/-- **C10 witness**: an over-50MB file is dropped without affecting the
other files; the two accepted files come out completed at progress 100. -/
theorem claim_C10_witness :
    ¬ acceptCond (InputFile.mk "big.png" (60 * 1024 * 1024) (toChars "image/png")) ∧
    processFiles [InputFile.mk "a.png" 10 (toChars "image/png"),
        InputFile.mk "big.png" (60 * 1024 * 1024) (toChars "image/png"),
        InputFile.mk "c.pdf" 5 (toChars "application/pdf")] =
      processFiles [InputFile.mk "a.png" 10 (toChars "image/png"),
        InputFile.mk "c.pdf" 5 (toChars "application/pdf")] ∧
    processFiles [InputFile.mk "a.png" 10 (toChars "image/png"),
        InputFile.mk "c.pdf" 5 (toChars "application/pdf")] =
      [mkUploaded (InputFile.mk "a.png" 10 (toChars "image/png")),
        mkUploaded (InputFile.mk "c.pdf" 5 (toChars "application/pdf"))] :=
  ⟨by decide,
    claim_C10.2.2.1 [InputFile.mk "a.png" 10 (toChars "image/png")]
      [InputFile.mk "c.pdf" 5 (toChars "application/pdf")]
      (InputFile.mk "big.png" (60 * 1024 * 1024) (toChars "image/png")) (by decide),
    by decide⟩

example : toChars "5,1-3,3" = ['5', ',', '1', '-', '3', ',', '3'] := rfl
example : splitOnChar ',' (toChars "5,1-3,3") =
    [toChars "5", toChars "1-3", toChars "3"] := rfl
example : parsePageRange (toChars "5,1-3,3") 5 = [1, 2, 3, 5] := by decide
example : parsePageRange (toChars "1-3,2") 5 = [1, 2, 3] := by decide
example : parsePageRange (toChars "10") 5 = [] := by decide
example : parsePageRange (toChars "1-3,7-9") 5 = [1, 2, 3] := by decide
example : parsePageRange (toChars " 2 - 4 , x, 3-1") 9 = [2, 3, 4] := by decide
example : parseIntJS (toChars "0x10") = some 16 := by decide
example : parseIntJS (toChars "  -12abc") = some (-12) := by decide
example : parseIntJS (toChars "abc") = none := by decide
